import Mathlib

/-!
Verification of the index-selection optimizer core (reader, goal handling,
settings normalization) against its specification.

The Python source is embedded shallowly: the `Reader` normalization pipeline
(`_build_translation`, `_read_problem`, `_read_settings`), the `Goal` class,
and the index-partition step of `get_results` become pure Lean functions.
Python runtime failures (failed `assert`, `ValueError` from `list.index`,
`TypeError` from arithmetic on `None`, `KeyError` from a missing dict key)
become `Except.error`; costs from JSON are rationals; the fixed-point
upscaling uses Python's round-half-to-even.
-/

namespace IndexOpt

/-- Python `round`: round half to even (banker's rounding). -/
def pyRound (q : ℚ) : ℤ :=
  if q - (⌊q⌋ : ℚ) < 1/2 then ⌊q⌋
  else if 1/2 < q - (⌊q⌋ : ℚ) then ⌊q⌋ + 1
  else if ⌊q⌋ % 2 = 0 then ⌊q⌋ else ⌊q⌋ + 1

/-- `Reader._multiplier`. -/
def multiplier : ℤ := 100

/-- `Reader._upscale`: multiply by the multiplier and round (Python `round`). -/
def upscale (v : ℚ) : ℤ := pyRound (v * (multiplier : ℚ))

/-- `Reader._downscale`: divide by the multiplier. -/
def downscale (x : ℤ) : ℚ := (x : ℚ) / (multiplier : ℚ)

/-- One `{IndexOID, Cost}` record inside a scan's index-cost lists. -/
structure CostEntry where
  oid : ℤ
  cost : ℚ
  deriving DecidableEq, Repr

/-- One record of the input `Scans` list: scan ID, optional sequential cost,
existing/possible index cost lists. -/
structure ScanInput where
  id : String
  seqCost : Option ℚ
  eCosts : List CostEntry
  pCosts : List CostEntry
  deriving DecidableEq, Repr

/-- One record of the input `Existing Indexes` / `Possible Indexes` lists. -/
structure IndexInput where
  oid : ℤ
  iwo : ℚ
  deriving DecidableEq, Repr

/-- The deserialized problem JSON. -/
structure ProblemInput where
  scans : List ScanInput
  eind : List IndexInput
  pind : List IndexInput
  deriving DecidableEq, Repr

/-- `Reader._build_translation`, scan part: IDs of scans whose sequential
cost is present (scans without one are ignored). -/
def scanIDs (p : ProblemInput) : List String :=
  (p.scans.filter (fun s => s.seqCost.isSome)).map (fun s => s.id)

/-- `Reader._build_translation`, index part: OIDs of existing then possible
indexes, concatenated in that order. -/
def indexOIDs (p : ProblemInput) : List ℤ :=
  ((p.eind ++ p.pind).map (fun i => i.oid))

/-- Python `list.index` / `tuple.index`: position of the first occurrence,
`none` when absent (where Python raises `ValueError`). -/
def pyIndex {α : Type} [DecidableEq α] : List α → α → Option ℕ
  | [], _ => none
  | a :: l, x => if a = x then some 0 else (pyIndex l x).map (fun n => n + 1)

/-- Write `some v` at row `i`, column `j` of an optional-cost matrix. -/
def setMat (m : List (List (Option ℤ))) (i j : ℕ) (v : ℤ) :
    List (List (Option ℤ)) :=
  m.set i ((m.getD i []).set j (some v))

/-- Read row `i`, column `j` of an optional-cost matrix. -/
def getMat (m : List (List (Option ℤ))) (i j : ℕ) : Option ℤ :=
  (m.getD i []).getD j none

/-- The inner loop of `Reader._read_problem` over one scan's
`Existing Index Costs + Possible Index Costs`: look the OID up in the
translation (`ValueError` when absent), skip the entry when its upscaled
cost is not strictly below the scan's sequential cost, otherwise store it. -/
def processEntries (oids : List ℤ) (sc : ℤ) (j : ℕ) :
    List CostEntry → List (List (Option ℤ)) → Except String (List (List (Option ℤ)))
  | [], m => .ok m
  | e :: es, m =>
    match pyIndex oids e.oid with
    | none => .error "ValueError"
    | some i =>
      if sc ≤ upscale e.cost then processEntries oids sc j es m
      else processEntries oids sc j es (setMat m i j (upscale e.cost))

/-- State threaded through the scan loop of `Reader._read_problem`:
`Sequential Scan Costs` and `Index Costs`. -/
structure ScanState where
  seqCosts : List (Option ℤ)
  indexCosts : List (List (Option ℤ))
  deriving DecidableEq, Repr

/-- The outer loop of `Reader._read_problem` over `problem["Scans"]`:
for each scan (dropped ones included) look its ID up in the translation
(`ValueError` when absent), upscale its sequential cost (`TypeError` when
it is `None`), store it, and process the scan's index-cost entries. -/
def processScans (ids : List String) (oids : List ℤ) :
    List ScanInput → ScanState → Except String ScanState
  | [], st => .ok st
  | s :: ss, st =>
    match pyIndex ids s.id with
    | none => .error "ValueError"
    | some j =>
      match s.seqCost with
      | none => .error "TypeError"
      | some c =>
        match processEntries oids (upscale c) j (s.eCosts ++ s.pCosts) st.indexCosts with
        | .error e => .error e
        | .ok m => processScans ids oids ss ⟨st.seqCosts.set j (upscale c), m⟩

/-- The IWO loop of `Reader._read_problem` over
`Existing Indexes + Possible Indexes`. -/
def processIWOs (oids : List ℤ) :
    List IndexInput → List (Option ℤ) → Except String (List (Option ℤ))
  | [], ws => .ok ws
  | idx :: rest, ws =>
    match pyIndex oids idx.oid with
    | none => .error "ValueError"
    | some i => processIWOs oids rest (ws.set i (some (upscale idx.iwo)))

/-- One row of `Index Costs (R)`: a covered scan keeps the index's cost,
an uncovered scan falls back to its sequential cost (which can itself be
absent). `j` is the column of the row's first element. -/
def fillRowR (seq : List (Option ℤ)) : ℕ → List (Option ℤ) → List (Option ℤ)
  | _, [] => []
  | j, v :: r =>
    (match v with
     | some c => some c
     | none => seq.getD j none) :: fillRowR seq (j + 1) r

/-- The normalized problem data built by `Reader._read_problem`. -/
structure ProblemData where
  numEind : ℕ
  numPind : ℕ
  seqCosts : List (Option ℤ)
  indexCosts : List (List (Option ℤ))
  indexIWOs : List (Option ℤ)
  indexCostsB : List (List ℤ)
  indexCostsR : List (List (Option ℤ))
  deriving DecidableEq, Repr

/-- `Reader._read_problem`: build the translation, assert that at least one
possible index exists, run the scan loop, the IWO loop, and derive the
Boolean and Real cost matrices. -/
def readProblem (p : ProblemInput) : Except String ProblemData := do
  let ids := scanIDs p
  let oids := indexOIDs p
  let numEind := p.eind.length
  let numPind := p.pind.length
  if oids.length ≤ numEind then .error "AssertionError" else
  let init : ScanState :=
    ⟨List.replicate ids.length none,
     List.replicate oids.length (List.replicate ids.length none)⟩
  let st ← processScans ids oids p.scans init
  let iwos ← processIWOs oids (p.eind ++ p.pind) (List.replicate oids.length none)
  let costsB := st.indexCosts.map (fun row =>
    row.map (fun v => if v.isSome then (1 : ℤ) else 0))
  let costsR := st.indexCosts.map (fun row => fillRowR st.seqCosts 0 row)
  .ok ⟨numEind, numPind, st.seqCosts, st.indexCosts, iwos, costsB, costsR⟩

/-- `Reader.get_num_scans`: length of the scan-ID translation. -/
def getNumScans (p : ProblemInput) : ℕ := (scanIDs p).length

/-! ### Settings (`Reader._read_settings`) -/

/-- One `{Name, Tolerance}` goal record from the settings JSON. -/
structure GoalSetting where
  name : String
  tolerance : ℚ
  deriving DecidableEq, Repr

/-- A JSON rule value: `null`, an integer, or a float. -/
inductive RVal where
  | null : RVal
  | int : ℤ → RVal
  | float : ℚ → RVal
  deriving DecidableEq, Repr

/-- One `{Name, Value}` rule record from the settings JSON. -/
structure RuleSetting where
  name : String
  value : RVal
  deriving DecidableEq, Repr

/-- The `Options` object of the settings JSON; `Goals` and `Rules` keys are
each optional. -/
structure OptionsInput where
  goals : Option (List GoalSetting)
  rules : Option (List RuleSetting)
  deriving DecidableEq, Repr

/-- The deserialized settings JSON; the `Options` key and the `Time Limit`
key are each optional. -/
structure SettingsInput where
  options : Option OptionsInput
  timeLimit : Option RVal
  deriving DecidableEq, Repr

/-- The settings stored by the reader after normalization. -/
structure SettingsData where
  goals : List GoalSetting
  rules : List RuleSetting
  timeLimit : ℚ
  deriving DecidableEq, Repr

/-- The default goals installed by `Reader._read_settings` when the settings
supply none. -/
def defaultGoals : List GoalSetting :=
  [⟨"Minimize Total Cost", 0⟩, ⟨"Minimize Number of Indexes", 0⟩]

/-- Python `sum` over the `Index IWOs` list: `TypeError` when an entry is
still `None`. -/
def sumIWO : List (Option ℤ) → Except String ℤ
  | [] => .ok 0
  | none :: _ => .error "TypeError"
  | some v :: rest => (sumIWO rest).map (fun s => v + s)

/-- The per-rule defaulting and validation loop of `Reader._read_settings`. -/
def normalizeRule (pd : ProblemData) (iwoSum : Except String ℤ) (r : RuleSetting) :
    Except String RuleSetting :=
  if r.name = "Maximum Number of Possible Indexes" then
    match r.value with
    | .null =>
      if 1 ≤ (pd.numPind : ℤ) then .ok ⟨r.name, .int (pd.numPind : ℤ)⟩
      else .error "AssertionError"
    | .int z => if 1 ≤ z then .ok ⟨r.name, .int z⟩ else .error "AssertionError"
    | .float _ => .error "AssertionError"
  else if r.name = "Maximum Index Write Overhead" then
    match r.value with
    | .null => iwoSum.map (fun s => ⟨r.name, .int s⟩)
    | .int z => if 0 ≤ z then .ok ⟨r.name, .int z⟩ else .error "AssertionError"
    | .float q => if 0 ≤ q then .ok ⟨r.name, .float q⟩ else .error "AssertionError"
  else .ok r

/-- The in-place rule-normalization loop of `Reader._read_settings`,
elementwise over the stored rules list, propagating the first failure. -/
def mapRules (pd : ProblemData) (iwoSum : Except String ℤ) :
    List RuleSetting → Except String (List RuleSetting)
  | [] => .ok []
  | r :: rs => do
    let r1 ← normalizeRule pd iwoSum r
    let rest ← mapRules pd iwoSum rs
    .ok (r1 :: rest)

/-- `Reader._read_settings`: default goals when none are supplied, duplicate
rule check, appending of missing default rules, per-rule defaulting and
validation, and the time limit. -/
def readSettings (pd : ProblemData) (s : SettingsInput) : Except String SettingsData := do
  let opts ← match s.options with
    | some o => Except.ok o
    | none => Except.error "KeyError"
  let goals := match opts.goals with
    | some gs => gs
    | none => defaultGoals
  let rules0 := match opts.rules with
    | some rs => rs
    | none => []
  let names := rules0.map (fun r => r.name)
  if ¬ names.Nodup then .error "AssertionError" else
  let rules1 := rules0 ++
    (if "Maximum Number of Possible Indexes" ∈ names then []
     else [⟨"Maximum Number of Possible Indexes", RVal.null⟩]) ++
    (if "Maximum Index Write Overhead" ∈ names then []
     else [⟨"Maximum Index Write Overhead", RVal.null⟩])
  let rules2 ← mapRules pd (sumIWO pd.indexIWOs) rules1
  let tl ← match s.timeLimit with
    | some (.int z) => if 0 ≤ z then Except.ok ((z : ℚ)) else Except.error "AssertionError"
    | some (.float q) => if 0 ≤ q then Except.ok q else Except.error "AssertionError"
    | some .null => Except.error "AssertionError"
    | none => Except.ok 999999
  .ok ⟨goals, rules2, tl⟩

/-- `Reader.__init__`: read the problem, then the settings (an omitted
settings argument becomes the empty JSON object). -/
def readerInit (p : ProblemInput) (s : Option SettingsInput) : Except String (ProblemData × SettingsData) := do
  let pd ← readProblem p
  let sd ← readSettings pd ((s.getD ⟨none, none⟩))
  .ok (pd, sd)

/-! ### Goal (`goal.py`) -/

/-- `Goal._names`: the fixed goal-name enumeration. -/
def goalNames : List String :=
  ["Minimize Index Write Overhead", "Minimal Indexes", "Minimal Cost"]

/-- A `Goal` object: name, tolerance, and the achieved value (`None` until
the goal has been optimized). -/
structure Goal where
  name : String
  tolerance : ℚ
  value : Option ℚ
  deriving DecidableEq, Repr

/-- `Goal.__init__`: assert the name is in the enumeration and the tolerance
is non-negative; the value starts unset. -/
def goalInit (name : String) (tolerance : ℚ) : Except String Goal :=
  if name ∈ goalNames then
    if 0 ≤ tolerance then .ok ⟨name, tolerance, none⟩
    else .error "AssertionError"
  else .error "AssertionError"

/-- `Goal.is_optimized`. -/
def Goal.isOptimized (g : Goal) : Bool := g.value.isSome

/-- `Goal.get_value`: assert the goal has been optimized, then return the
value. -/
def Goal.getValue (g : Goal) : Except String ℚ :=
  match g.value with
  | none => .error "AssertionError"
  | some v => .ok v

/-- `Goal.update_value`. -/
def Goal.updateValue (g : Goal) (v : ℚ) : Goal := ⟨g.name, g.tolerance, some v⟩

/-- A solver assignment: the selection variables `x` and the per-scan cost
variables `scan_cost`. -/
structure Assignment where
  x : List ℤ
  scanCost : List ℤ
  deriving DecidableEq, Repr

/-- The three linear expressions a goal can bound: the IWO-weighted sum of
the selection variables, their plain sum, and the sum of the scan costs. -/
inductive GExpr where
  | iwoSum : GExpr
  | indexCount : GExpr
  | costSum : GExpr
  deriving DecidableEq, Repr

/-- Evaluate a goal expression on an assignment, given the model's IWO
weights. -/
def GExpr.eval (e : GExpr) (iwo : List ℤ) (a : Assignment) : ℤ :=
  match e with
  | .iwoSum => ((a.x.zip iwo).map (fun pr => pr.1 * pr.2)).sum
  | .indexCount => a.x.sum
  | .costSum => a.scanCost.sum

/-- The constraint-model surface the goals touch: the IWO weights and the
list of installed bounds, each `expression ≤ bound`.

Modelled from the spec: the CP-SAT model object built by the missing
`modelize` module is specified only through the capability interface of §6;
a constraint added by a goal persists on the model for every later solve. -/
structure CpModel where
  indexIWO : List ℤ
  constraints : List (GExpr × ℤ)
  deriving DecidableEq, Repr

/-- Modelled from the spec: a solution returned by the constraint-solving
backend satisfies every constraint installed on the model. -/
def satisfies (m : CpModel) (a : Assignment) : Prop :=
  ∀ c ∈ m.constraints, c.1.eval m.indexIWO a ≤ c.2

/-- The expression `Goal.add_as_constraint` bounds for each recognized goal
name (`none` for a name outside the dispatch chain, which adds nothing). -/
def exprOfName (n : String) : Option GExpr :=
  if n = "Minimize Index Write Overhead" then some .iwoSum
  else if n = "Minimal Indexes" then some .indexCount
  else if n = "Minimal Cost" then some .costSum
  else none

/-- `Goal.add_as_constraint`: assert the goal has been optimized, then bound
its expression by `floor(value * (1 + tolerance))`. -/
def Goal.addAsConstraint (g : Goal) (m : CpModel) : Except String CpModel :=
  match g.value with
  | none => .error "AssertionError"
  | some v =>
    match exprOfName g.name with
    | some e => .ok ⟨m.indexIWO, (e, ⌊v * (1 + g.tolerance)⌋) :: m.constraints⟩
    | none => .ok m

/-! ### Results extraction (`Reader.get_results`, index partition) -/

/-- Enumerate a solution suffix whose first element sits at position `k`:
each entry becomes `(Index OID, Selected)`, as in `get_results`. -/
def enumIndexes (oids : List ℤ) : ℕ → List ℤ → List (ℤ × Bool)
  | _, [] => []
  | k, u :: rest => (oids.getD k 0, u == 1) :: enumIndexes oids (k + 1) rest

/-- The index-partition loop of `Reader.get_results`: an index goes to the
`Existing Indexes` list exactly when its position is below the
existing-index count `e`, else to the `Possible Indexes` list. `k` is the
position of the solution suffix's first element. -/
def splitIndexes (oids : List ℤ) (e : ℕ) :
    ℕ → List ℤ → List (ℤ × Bool) × List (ℤ × Bool)
  | _, [] => ([], [])
  | k, u :: rest =>
    let nw := (oids.getD k 0, u == 1)
    let pr := splitIndexes oids e (k + 1) rest
    if k < e then (nw :: pr.1, pr.2) else (pr.1, nw :: pr.2)

/-! ### Concrete instances used in the claim evaluations -/

/-- A small normalized problem: one scan of cost 100, one existing and one
possible index. -/
def pdSample : ProblemData :=
  ⟨1, 1, [some 10000], [[none], [none]], [some 1000, some 2000],
   [[0], [0]], [[some 10000], [some 10000]]⟩

/-- A workload whose first scan has no sequential cost (the scan the
normalizer is supposed to drop). -/
def droppedScanInput : ProblemInput :=
  ⟨[⟨"s2", none, [], []⟩, ⟨"s1", some 100, [], []⟩], [], [⟨1, 0⟩]⟩

/-- A settings input with an `Options` object that supplies no goals and no
rules. -/
def emptySettings : SettingsInput := ⟨some ⟨none, none⟩, none⟩

/-- A settings input whose rules set `Maximum Number of Possible Indexes`
to 0. -/
def zeroMaxIndexSettings : SettingsInput :=
  ⟨some ⟨none, some [⟨"Maximum Number of Possible Indexes", RVal.int 0⟩]⟩, none⟩

/-- A one-scan workload where possible index 2 covers the scan at cost 50
against a sequential cost of 100. -/
def coverInput : ProblemInput := ⟨[⟨"s1", some 100, [], [⟨2, 50⟩]⟩], [], [⟨2, 20⟩]⟩

/-- The normalized data of `coverInput`. -/
def coverData : ProblemData :=
  ⟨0, 1, [some 10000], [[some 5000]], [some 2000], [[1]], [[some 5000]]⟩

/-! ### Helper lemmas -/

theorem pyRound_sub_le (q : ℚ) : |(pyRound q : ℚ) - q| ≤ 1/2 := by
  have h1 : (⌊q⌋ : ℚ) ≤ q := Int.floor_le q
  have h2 : q < (⌊q⌋ : ℚ) + 1 := Int.lt_floor_add_one q
  rw [pyRound]
  split_ifs with hc1 hc2 hc3 <;> rw [abs_le] <;> constructor <;> push_cast <;> linarith

theorem bind_ok_inv {α β : Type} (x : Except String α) (f : α → Except String β)
    (b : β) (h : x >>= f = .ok b) : ∃ a, x = .ok a := by
  cases x with
  | error e => simp [Bind.bind, Except.bind] at h
  | ok a => exact ⟨a, rfl⟩

theorem mapRules_ok_mem (pd : ProblemData) (w : Except String ℤ)
    (l : List RuleSetting) (l2 : List RuleSetting) (r : RuleSetting)
    (h : mapRules pd w l = .ok l2) (hm : r ∈ l) :
    ∃ r2, normalizeRule pd w r = .ok r2 := by
  induction l generalizing l2 with
  | nil => cases hm
  | cons a as ih =>
    rw [mapRules] at h
    cases hn : normalizeRule pd w a with
    | error e => rw [hn] at h; simp [Bind.bind, Except.bind] at h
    | ok r1 =>
      rcases List.mem_cons.mp hm with hra | hras
      · exact ⟨r1, hra ▸ hn⟩
      · rw [hn] at h
        simp only [Bind.bind, Except.bind] at h
        cases hrest : mapRules pd w as with
        | error e => rw [hrest] at h; simp at h
        | ok l3 => exact ih l3 hrest hras

/-! ### Claim theorems, first group -/

/-- C9: for every non-negative value, downscaling the upscaled value is
within one unit of the multiplier's resolution of the original:
the fixed-point scaling round-trips up to `1 / multiplier`. -/
theorem downscale_upscale_within_resolution (v : ℚ) (h : 0 ≤ v) :
    |downscale (upscale v) - v| ≤ 1 / (multiplier : ℚ) := by
  have hm : ((multiplier : ℤ) : ℚ) = 100 := by norm_num [multiplier]
  rw [downscale, upscale, hm]
  have hd := pyRound_sub_le (v * 100)
  have he : ((pyRound (v * 100) : ℚ)) / 100 - v =
      ((pyRound (v * 100) : ℚ) - v * 100) / 100 := by ring
  rw [he, abs_div, abs_of_pos (by norm_num : (0:ℚ) < 100)]
  rw [div_le_div_iff₀ (by norm_num) (by norm_num)]
  linarith

/-- C1 (evaluating the code at the failing configuration): with settings
that supply no goals, the reader installs the default goal ordering (total
cost then index count, both tolerance 0), but neither default goal name is
a member of the fixed `Goal` name enumeration, so constructing a `Goal`
from either default name fails its validation assertion instead of
succeeding. -/
theorem default_goal_names_fail_goal_validation :
    (∃ sd, readSettings pdSample emptySettings = .ok sd ∧ sd.goals = defaultGoals) ∧
    defaultGoals.map (fun g => g.name) =
      ["Minimize Total Cost", "Minimize Number of Indexes"] ∧
    (∀ g ∈ defaultGoals, g.tolerance = 0) ∧
    (∀ g ∈ defaultGoals, g.name ∉ goalNames) ∧
    (∀ g ∈ defaultGoals, goalInit g.name g.tolerance = .error "AssertionError") := by
  refine ⟨?_, rfl, ?_, ?_, ?_⟩
  · simp +decide [readSettings, emptySettings, pdSample, mapRules, normalizeRule,
      sumIWO, defaultGoals, bind, Except.bind, Except.map]
  · intro g hg
    rcases List.mem_cons.mp hg with h | h
    · rw [h]
    · rcases List.mem_cons.mp h with h2 | h2
      · rw [h2]
      · cases h2
  · intro g hg
    rcases List.mem_cons.mp hg with h | h
    · rw [h]; decide
    · rcases List.mem_cons.mp h with h2 | h2
      · rw [h2]; decide
      · cases h2
  · intro g hg
    rcases List.mem_cons.mp hg with h | h
    · rw [h]; simp +decide [goalInit, goalNames]
    · rcases List.mem_cons.mp h with h2 | h2
      · rw [h2]; simp +decide [goalInit, goalNames]
      · cases h2

/-- C2 (evaluating the code at the failing input): the scan without a
sequential cost is dropped from the translation (so `get_num_scans` would
not count it), yet Reader construction does not complete: the scan loop of
`_read_problem` still visits the dropped scan and its `tuple.index` lookup
fails, so construction raises instead of excluding the scan. -/
theorem dropped_scan_crashes_reader :
    scanIDs droppedScanInput = ["s1"] ∧
    getNumScans droppedScanInput = 1 ∧
    readProblem droppedScanInput = .error "ValueError" ∧
    readerInit droppedScanInput none = .error "ValueError" :=
  ⟨rfl, rfl, rfl, rfl⟩

/-- C3 counterexample: a settings input that sets the
`Maximum Number of Possible Indexes` rule to 0 is not accepted — settings
reading fails on the `value >= 1` assertion at a concrete input. -/
theorem zero_max_indexes_rejected_eval :
    readSettings pdSample zeroMaxIndexSettings = .error "AssertionError" := by
  simp +decide [readSettings, zeroMaxIndexSettings, pdSample, mapRules,
    normalizeRule, sumIWO, bind, Except.bind, Except.map]

/-- C3 amended: a settings input whose rules set
`Maximum Number of Possible Indexes` to 0 is always rejected during
settings validation (the value must be an integer at least 1), so no such
settings ever reach a solve. -/
theorem zero_max_indexes_always_rejected (pd : ProblemData) (s : SettingsInput)
    (o : OptionsInput) (rs : List RuleSetting)
    (ho : s.options = some o) (hr : o.rules = some rs)
    (hmem : (⟨"Maximum Number of Possible Indexes", RVal.int 0⟩ : RuleSetting) ∈ rs) :
    ∀ sd, readSettings pd s ≠ .ok sd := by
  intro sd h
  have hbad : normalizeRule pd (sumIWO pd.indexIWOs)
      ⟨"Maximum Number of Possible Indexes", RVal.int 0⟩ = .error "AssertionError" := by
    simp +decide [normalizeRule]
  simp only [readSettings, ho, hr, Bind.bind, Except.bind] at h
  split at h
  · exact Except.noConfusion h
  · obtain ⟨l2, hl2⟩ := bind_ok_inv _ _ _ h
    obtain ⟨r2, hr2⟩ := mapRules_ok_mem _ _ _ _ _ hl2
      (List.mem_append_left _ (List.mem_append_left _ hmem))
    rw [hbad] at hr2
    exact Except.noConfusion hr2

/-- Witness for C3's amended theorem: the concrete zero-valued rule input
is rejected. -/
theorem zero_max_indexes_always_rejected_witness :
    readSettings pdSample zeroMaxIndexSettings ≠
      .ok ⟨defaultGoals, [], 999999⟩ :=
  zero_max_indexes_always_rejected pdSample zeroMaxIndexSettings
    ⟨none, some [⟨"Maximum Number of Possible Indexes", RVal.int 0⟩]⟩
    [⟨"Maximum Number of Possible Indexes", RVal.int 0⟩]
    rfl rfl (List.mem_singleton.mpr rfl) ⟨defaultGoals, [], 999999⟩

/-- Witness for C9: the round-trip bound instantiated at `v = 3`. -/
theorem downscale_upscale_within_resolution_witness :
    |downscale (upscale 3) - 3| ≤ 1 / (multiplier : ℚ) :=
  downscale_upscale_within_resolution 3 (by norm_num)

/-- C7: an input with an empty possible-index list fails Reader
construction (the possible-index assertion), before any solve. -/
theorem no_possible_indexes_fails (p : ProblemInput) (s : Option SettingsInput)
    (h : p.pind = []) : readerInit p s = .error "AssertionError" := by
  have hp : readProblem p = .error "AssertionError" := by
    simp [readProblem, indexOIDs, h]
  simp only [readerInit, hp]
  rfl

/-- Witness for C7: a concrete input with one existing and no possible
indexes is rejected. -/
theorem no_possible_indexes_fails_witness :
    readerInit ⟨[], [⟨1, 0⟩], []⟩ none = .error "AssertionError" :=
  no_possible_indexes_fails ⟨[], [⟨1, 0⟩], []⟩ none rfl

/-- C8: an unsolved goal's `get_value` and `add_as_constraint` fail fast
on the optimized assertion; after `update_value` both succeed. -/
theorem goal_sequencing_asserts (g : Goal) (m : CpModel) (v : ℚ)
    (h : g.value = none) :
    g.getValue = .error "AssertionError" ∧
    g.addAsConstraint m = .error "AssertionError" ∧
    (g.updateValue v).getValue = .ok v ∧
    ∃ m2, (g.updateValue v).addAsConstraint m = .ok m2 := by
  refine ⟨by simp [Goal.getValue, h], by simp [Goal.addAsConstraint, h],
    by simp [Goal.getValue, Goal.updateValue], ?_⟩
  cases he : exprOfName g.name with
  | none =>
    exact ⟨m, by simp [Goal.addAsConstraint, Goal.updateValue, he]⟩
  | some e =>
    refine ⟨⟨m.indexIWO, (e, ⌊v * (1 + g.tolerance)⌋) :: m.constraints⟩, ?_⟩
    simp [Goal.addAsConstraint, Goal.updateValue, he]

/-- Witness for C8: a concrete unsolved goal fails both calls; after
`update_value 5` both succeed. -/
theorem goal_sequencing_asserts_witness :
    (Goal.getValue ⟨"Minimal Cost", 0, none⟩ = .error "AssertionError") ∧
    (Goal.addAsConstraint ⟨"Minimal Cost", 0, none⟩ ⟨[], []⟩ = .error "AssertionError") ∧
    ((Goal.updateValue ⟨"Minimal Cost", 0, none⟩ 5).getValue = .ok 5) ∧
    (∃ m2, (Goal.updateValue ⟨"Minimal Cost", 0, none⟩ 5).addAsConstraint ⟨[], []⟩ = .ok m2) :=
  goal_sequencing_asserts ⟨"Minimal Cost", 0, none⟩ ⟨[], []⟩ 5 rfl

/-- C4: `add_as_constraint` on a solved goal with value `v` and tolerance
`t` installs the bound `goal expression ≤ floor(v * (1 + t))`, and every
assignment satisfying any later model that retains the installed
constraints keeps the goal's expression within that bound. -/
theorem goal_constraint_bounds_later_solutions (g : Goal) (m : CpModel)
    (v : ℚ) (e : GExpr) (hv : g.value = some v) (ht : 0 ≤ g.tolerance)
    (he : exprOfName g.name = some e) :
    ∃ m1, g.addAsConstraint m = .ok m1 ∧
      (e, ⌊v * (1 + g.tolerance)⌋) ∈ m1.constraints ∧
      ∀ (m2 : CpModel) (a : Assignment), m1.constraints ⊆ m2.constraints →
        satisfies m2 a → e.eval m2.indexIWO a ≤ ⌊v * (1 + g.tolerance)⌋ := by
  refine ⟨⟨m.indexIWO, (e, ⌊v * (1 + g.tolerance)⌋) :: m.constraints⟩,
    by simp [Goal.addAsConstraint, hv, he], List.mem_cons_self _ _, ?_⟩
  intro m2 a hsub hsat
  exact hsat _ (hsub (List.mem_cons_self _ _))

theorem splitIndexes_of_le (oids : List ℤ) (e : ℕ) :
    ∀ (sol : List ℤ) (k : ℕ), e ≤ k →
      splitIndexes oids e k sol = ([], enumIndexes oids k sol) := by
  intro sol
  induction sol with
  | nil => intro k _; rfl
  | cons u rest ih =>
    intro k hk
    have hk' : ¬ k < e := by omega
    simp [splitIndexes, enumIndexes, hk', ih (k + 1) (by omega)]

theorem splitIndexes_take_drop (oids : List ℤ) (e : ℕ) :
    ∀ (sol : List ℤ) (k : ℕ), k ≤ e →
      splitIndexes oids e k sol =
        (enumIndexes oids k (sol.take (e - k)), enumIndexes oids e (sol.drop (e - k))) := by
  intro sol
  induction sol with
  | nil => intro k _; simp [splitIndexes, enumIndexes]
  | cons u rest ih =>
    intro k hk
    rcases Nat.lt_or_ge k e with hlt | hge
    · have h1 : e - k = (e - (k + 1)) + 1 := by omega
      simp only [splitIndexes, hlt, if_pos, h1, List.take_succ_cons, List.drop_succ_cons,
        enumIndexes, ih (k + 1) (by omega)]
    · have hke : k = e := by omega
      subst hke
      have h0 : k - k = 0 := by omega
      rw [splitIndexes_of_le oids k (u :: rest) k (le_refl k)]
      simp [h0, enumIndexes]

/-- C6: the ordered index translation is existing-then-possible, the index
count is the sum of the two counts, existing indexes occupy the low
positions, and the `get_results` partition sends an index to the existing
list exactly when its position is below the existing count: the partition
of a solution is the enumeration of its first `existingCount` entries next
to the enumeration of the rest. -/
theorem index_order_and_partition (p : ProblemInput) (sol : List ℤ) :
    indexOIDs p = p.eind.map (fun i => i.oid) ++ p.pind.map (fun i => i.oid) ∧
    (indexOIDs p).length = p.eind.length + p.pind.length ∧
    (∀ k, k < p.eind.length →
      (indexOIDs p).getD k 0 = (p.eind.map (fun i => i.oid)).getD k 0) ∧
    splitIndexes (indexOIDs p) p.eind.length 0 sol =
      (enumIndexes (indexOIDs p) 0 (sol.take p.eind.length),
       enumIndexes (indexOIDs p) p.eind.length (sol.drop p.eind.length)) := by
  refine ⟨by simp [indexOIDs], by simp [indexOIDs], ?_, ?_⟩
  · intro k hk
    simp only [indexOIDs, List.map_append]
    rw [List.getD_eq_getElem?_getD, List.getD_eq_getElem?_getD, List.getElem?_append]
    simp [hk]
  · have := splitIndexes_take_drop (indexOIDs p) p.eind.length sol 0 (Nat.zero_le _)
    simpa using this

/-- Witness for C4: a solved index-count goal with value 2 and zero
tolerance bounds the selection-variable sum by 2 on every later model. -/
theorem goal_constraint_bounds_later_solutions_witness :
    ∃ m1, Goal.addAsConstraint ⟨"Minimal Indexes", 0, some 2⟩ ⟨[], []⟩ = .ok m1 ∧
      (GExpr.indexCount, ⌊(2:ℚ) * (1 + (0:ℚ))⌋) ∈ m1.constraints ∧
      ∀ (m2 : CpModel) (a : Assignment), m1.constraints ⊆ m2.constraints →
        satisfies m2 a →
        GExpr.indexCount.eval m2.indexIWO a ≤ ⌊(2:ℚ) * (1 + (0:ℚ))⌋ :=
  goal_constraint_bounds_later_solutions ⟨"Minimal Indexes", 0, some 2⟩ ⟨[], []⟩ 2
    GExpr.indexCount rfl (le_refl 0) rfl

/-! ### Matrix lemmas for the cost-matrix invariant -/

theorem getD_map_lt {α β : Type} (f : α → β) (m : List α) (i : ℕ) (d : α)
    (hi : i < m.length) : (m.map f).getD i (f d) = f (m.getD i d) := by
  rw [List.getD_eq_getElem?_getD, List.getD_eq_getElem?_getD, List.getElem?_map,
    List.getElem?_eq_getElem hi]
  rfl

theorem getD_set_self {α : Type} (l : List α) (j : ℕ) (v d : α)
    (h : j < l.length) : (l.set j v).getD j d = v := by
  rw [List.getD_eq_getElem?_getD, List.getElem?_set]
  simp [h]

theorem getD_set_ne {α : Type} (l : List α) (a j : ℕ) (v d : α)
    (h : a ≠ j) : (l.set a v).getD j d = l.getD j d := by
  rw [List.getD_eq_getElem?_getD, List.getElem?_set_ne h, ← List.getD_eq_getElem?_getD]

theorem getD_setMat_row (m : List (List (Option ℤ))) (a b : ℕ) (v : ℤ) (i : ℕ) :
    (setMat m a b v).getD i [] =
      if a = i ∧ a < m.length then (m.getD a []).set b (some v) else m.getD i [] := by
  rw [setMat, List.getD_eq_getElem?_getD, List.getElem?_set]
  by_cases hai : a = i
  · subst hai
    by_cases hlen : a < m.length
    · simp [hlen]
    · rw [if_pos rfl, if_neg hlen, if_neg (fun hc => hlen hc.2)]
      rw [List.getD_eq_getElem?_getD m a [], List.getElem?_eq_none (by omega)]
  · rw [if_neg hai, if_neg (fun hc => hai hc.1), ← List.getD_eq_getElem?_getD]

theorem getMat_setMat_ne (m : List (List (Option ℤ))) (a b : ℕ) (v : ℤ)
    (i j : ℕ) (h : a ≠ i ∨ b ≠ j) :
    getMat (setMat m a b v) i j = getMat m i j := by
  rw [getMat, getMat, getD_setMat_row]
  by_cases hai : a = i ∧ a < m.length
  · rcases h with h | h
    · exact absurd hai.1 h
    · rw [if_pos hai, hai.1, getD_set_ne _ _ _ _ _ h]
  · rw [if_neg hai]

theorem getMat_setMat_self (m : List (List (Option ℤ))) (a b : ℕ) (v : ℤ)
    (ha : a < m.length) (hb : b < (m.getD a []).length) :
    getMat (setMat m a b v) a b = some v := by
  rw [getMat, getD_setMat_row, if_pos ⟨rfl, ha⟩, getD_set_self _ _ _ _ hb]

theorem getMat_some_range (m : List (List (Option ℤ))) (i j : ℕ) (v : ℤ)
    (h : getMat m i j = some v) :
    i < m.length ∧ j < (m.getD i []).length := by
  constructor
  · by_contra hi
    have hrow : m.getD i [] = [] := by
      rw [List.getD_eq_getElem?_getD m i [], List.getElem?_eq_none (by omega)]
      rfl
    rw [getMat, hrow] at h
    exact Option.noConfusion h
  · by_contra hj
    rw [getMat,
      List.getD_eq_getElem?_getD (m.getD i []) j none,
      List.getElem?_eq_none (by omega)] at h
    exact Option.noConfusion h

theorem getMat_setMat_cases (m : List (List (Option ℤ))) (a b : ℕ) (v : ℤ)
    (i j : ℕ) (w : ℤ) (h : getMat (setMat m a b v) i j = some w) :
    (i = a ∧ j = b ∧ w = v) ∨ getMat m i j = some w := by
  by_cases hai : a = i
  · by_cases hbj : b = j
    · subst hai; subst hbj
      by_cases hr : a < m.length ∧ b < (m.getD a []).length
      · rw [getMat_setMat_self m a b v hr.1 hr.2] at h
        exact Or.inl ⟨rfl, rfl, (Option.some_inj.mp h).symm⟩
      · rcases Decidable.not_and_iff_or_not.mp hr with hr1 | hr1
        · rw [getMat, getD_setMat_row, if_neg (fun hc => hr1 hc.2)] at h
          exact Or.inr h
        · rw [getMat, getD_setMat_row] at h
          by_cases hc : a = a ∧ a < m.length
          · rw [if_pos hc] at h
            rw [List.getD_eq_getElem?_getD, List.getElem?_eq_none] at h
            · simp at h
            · rw [List.length_set]; omega
          · rw [if_neg hc] at h
            exact Or.inr h
    · exact Or.inr (getMat_setMat_ne m a b v i j (Or.inr hbj) ▸ h)
  · exact Or.inr (getMat_setMat_ne m a b v i j (Or.inl hai) ▸ h)

/-- Shape of a cost matrix: `I` rows, each of length `J`. -/
def MShape (m : List (List (Option ℤ))) (I J : ℕ) : Prop :=
  m.length = I ∧ ∀ i, i < I → (m.getD i []).length = J

theorem MShape_replicate (I J : ℕ) :
    MShape (List.replicate I (List.replicate J (none : Option ℤ))) I J := by
  refine ⟨List.length_replicate _ _, fun i hi => ?_⟩
  rw [List.getD_eq_getElem?_getD, List.getElem?_replicate, if_pos hi]
  simp

theorem MShape_setMat (m : List (List (Option ℤ))) (I J a b : ℕ) (v : ℤ)
    (h : MShape m I J) : MShape (setMat m a b v) I J := by
  refine ⟨by rw [setMat, List.length_set]; exact h.1, fun i hi => ?_⟩
  rw [getD_setMat_row]
  by_cases hc : a = i ∧ a < m.length
  · rw [if_pos hc, List.length_set]
    exact h.2 a (by rw [← h.1]; exact hc.2)
  · rw [if_neg hc]; exact h.2 i hi

theorem getMat_replicate_none (I J i j : ℕ) :
    getMat (List.replicate I (List.replicate J (none : Option ℤ))) i j = none := by
  simp only [getMat, List.getD_eq_getElem?_getD]
  by_cases hi : i < I <;> by_cases hj : j < J <;>
    simp [hi, hj, List.getElem?_replicate]

/-! ### Entry-loop lemmas -/

theorem processEntries_shape (oids : List ℤ) (sc : ℤ) (j : ℕ) (I J : ℕ) :
    ∀ (es : List CostEntry) (m m' : List (List (Option ℤ))),
      processEntries oids sc j es m = .ok m' → MShape m I J → MShape m' I J := by
  intro es
  induction es with
  | nil => intro m m' h hs; cases h; exact hs
  | cons e rest ih =>
    intro m m' h hs
    simp only [processEntries] at h
    cases hpi : pyIndex oids e.oid with
    | none => simp only [hpi] at h; exact Except.noConfusion h
    | some i =>
      simp only [hpi] at h
      by_cases hcov : sc ≤ upscale e.cost
      · rw [if_pos hcov] at h
        exact ih m m' h hs
      · rw [if_neg hcov] at h
        exact ih _ m' h (MShape_setMat m I J i j (upscale e.cost) hs)

theorem processEntries_frame (oids : List ℤ) (sc : ℤ) (j : ℕ) :
    ∀ (es : List CostEntry) (m m' : List (List (Option ℤ))),
      processEntries oids sc j es m = .ok m' →
      ∀ (i jo : ℕ), jo ≠ j → getMat m' i jo = getMat m i jo := by
  intro es
  induction es with
  | nil => intro m m' h i jo hjo; cases h; rfl
  | cons e rest ih =>
    intro m m' h i jo hjo
    simp only [processEntries] at h
    cases hpi : pyIndex oids e.oid with
    | none => simp only [hpi] at h; exact Except.noConfusion h
    | some i2 =>
      simp only [hpi] at h
      by_cases hcov : sc ≤ upscale e.cost
      · rw [if_pos hcov] at h
        exact ih m m' h i jo hjo
      · rw [if_neg hcov] at h
        rw [ih _ m' h i jo hjo]
        exact getMat_setMat_ne m i2 j (upscale e.cost) i jo (Or.inr (fun hj2 => hjo hj2.symm))

theorem processEntries_le (oids : List ℤ) (sc : ℤ) (j : ℕ) :
    ∀ (es : List CostEntry) (m m' : List (List (Option ℤ))),
      processEntries oids sc j es m = .ok m' →
      ∀ (i : ℕ) (v : ℤ), getMat m' i j = some v → v < sc ∨ getMat m i j = some v := by
  intro es
  induction es with
  | nil => intro m m' h i v hv; cases h; exact Or.inr hv
  | cons e rest ih =>
    intro m m' h i v hv
    simp only [processEntries] at h
    cases hpi : pyIndex oids e.oid with
    | none => simp only [hpi] at h; exact Except.noConfusion h
    | some i2 =>
      simp only [hpi] at h
      by_cases hcov : sc ≤ upscale e.cost
      · rw [if_pos hcov] at h
        exact ih m m' h i v hv
      · rw [if_neg hcov] at h
        rcases ih _ m' h i v hv with hlt | hset
        · exact Or.inl hlt
        · rcases getMat_setMat_cases m i2 j (upscale e.cost) i j v hset with ⟨_, _, hv2⟩ | hold
          · exact Or.inl (by omega)
          · exact Or.inr hold

theorem processEntries_no_write (oids : List ℤ) (sc : ℤ) (j : ℕ) (i : ℕ) :
    ∀ (es : List CostEntry) (m m' : List (List (Option ℤ))),
      processEntries oids sc j es m = .ok m' →
      (∀ e ∈ es, pyIndex oids e.oid = some i → sc ≤ upscale e.cost) →
      getMat m' i j = getMat m i j := by
  intro es
  induction es with
  | nil => intro m m' h _; cases h; rfl
  | cons e rest ih =>
    intro m m' h hno
    simp only [processEntries] at h
    cases hpi : pyIndex oids e.oid with
    | none => simp only [hpi] at h; exact Except.noConfusion h
    | some i2 =>
      simp only [hpi] at h
      by_cases hcov : sc ≤ upscale e.cost
      · rw [if_pos hcov] at h
        exact ih m m' h (fun e2 he2 => hno e2 (List.mem_cons_of_mem e he2))
      · rw [if_neg hcov] at h
        have hi2 : i2 ≠ i := by
          intro hq
          exact hcov (hno e (List.mem_cons_self e rest) (hq ▸ hpi))
        rw [ih _ m' h (fun e2 he2 => hno e2 (List.mem_cons_of_mem e he2))]
        exact getMat_setMat_ne m i2 j (upscale e.cost) i j (Or.inl hi2)

theorem processEntries_write_stable (oids : List ℤ) (sc : ℤ) (j : ℕ) (i : ℕ) (c : ℤ) :
    ∀ (es : List CostEntry) (m m' : List (List (Option ℤ))),
      processEntries oids sc j es m = .ok m' →
      (∀ e ∈ es, pyIndex oids e.oid = some i → upscale e.cost = c) →
      getMat m i j = some c →
      getMat m' i j = some c := by
  intro es
  induction es with
  | nil => intro m m' h _ hm; cases h; exact hm
  | cons e rest ih =>
    intro m m' h hall hm
    simp only [processEntries] at h
    cases hpi : pyIndex oids e.oid with
    | none => simp only [hpi] at h; exact Except.noConfusion h
    | some i2 =>
      simp only [hpi] at h
      by_cases hcov : sc ≤ upscale e.cost
      · rw [if_pos hcov] at h
        exact ih m m' h (fun e2 he2 => hall e2 (List.mem_cons_of_mem e he2)) hm
      · rw [if_neg hcov] at h
        by_cases hi2 : i2 = i
        · subst hi2
          have hc : upscale e.cost = c := hall e (List.mem_cons_self e rest) hpi
          have hr := getMat_some_range m i2 j c hm
          have hw : getMat (setMat m i2 j (upscale e.cost)) i2 j = some c := by
            rw [getMat_setMat_self m i2 j (upscale e.cost) hr.1 hr.2, hc]
          exact ih _ m' h (fun e2 he2 => hall e2 (List.mem_cons_of_mem e he2)) hw
        · have hw : getMat (setMat m i2 j (upscale e.cost)) i j = some c := by
            rw [getMat_setMat_ne m i2 j (upscale e.cost) i j (Or.inl hi2)]
            exact hm
          exact ih _ m' h (fun e2 he2 => hall e2 (List.mem_cons_of_mem e he2)) hw

theorem processEntries_char (oids : List ℤ) (sc : ℤ) (j : ℕ) (i : ℕ) (e0 : CostEntry) :
    ∀ (es : List CostEntry) (m m' : List (List (Option ℤ))),
      processEntries oids sc j es m = .ok m' →
      e0 ∈ es →
      pyIndex oids e0.oid = some i →
      (∀ e ∈ es, pyIndex oids e.oid = some i → e = e0) →
      i < m.length → j < (m.getD i []).length →
      getMat m i j = none →
      getMat m' i j = (if upscale e0.cost < sc then some (upscale e0.cost) else none) := by
  intro es
  induction es with
  | nil => intro m m' _ h0; cases h0
  | cons e rest ih =>
    intro m m' h h0 hpi0 honly hilen hjlen hnone
    simp only [processEntries] at h
    cases hpi : pyIndex oids e.oid with
    | none => simp only [hpi] at h; exact Except.noConfusion h
    | some i2 =>
      simp only [hpi] at h
      by_cases he0 : e = e0
      · subst he0
        have hi2 : i2 = i := by
          rw [hpi0] at hpi; exact (Option.some_inj.mp hpi).symm
        rw [hi2] at h
        by_cases hcov : sc ≤ upscale e.cost
        · rw [if_pos hcov] at h
          rw [if_neg (by omega)]
          rw [processEntries_no_write oids sc j i rest m m' h
            (fun e2 he2 hpi2 => by rw [honly e2 (List.mem_cons_of_mem e he2) hpi2]; exact hcov)]
          exact hnone
        · rw [if_neg hcov] at h
          rw [if_pos (by omega)]
          have hw : getMat (setMat m i j (upscale e.cost)) i j = some (upscale e.cost) :=
            getMat_setMat_self m i j (upscale e.cost) hilen hjlen
          exact processEntries_write_stable oids sc j i (upscale e.cost) rest _ m' h
            (fun e2 he2 hpi2 => by rw [honly e2 (List.mem_cons_of_mem e he2) hpi2]) hw
      · have hne : i2 ≠ i := by
          intro hq
          exact he0 (honly e (List.mem_cons_self e rest) (hq ▸ hpi))
        have h0r : e0 ∈ rest := by
          rcases List.mem_cons.mp h0 with hq | hq
          · exact absurd hq.symm he0
          · exact hq
        by_cases hcov : sc ≤ upscale e.cost
        · rw [if_pos hcov] at h
          exact ih m m' h h0r hpi0
            (fun e2 he2 => honly e2 (List.mem_cons_of_mem e he2)) hilen hjlen hnone
        · rw [if_neg hcov] at h
          have hrow : (setMat m i2 j (upscale e.cost)).getD i [] = m.getD i [] := by
            rw [getD_setMat_row]
            exact if_neg (fun hc => hne hc.1)
          refine ih _ m' h h0r hpi0
            (fun e2 he2 => honly e2 (List.mem_cons_of_mem e he2)) ?_ ?_ ?_
          · rw [setMat, List.length_set]; exact hilen
          · rw [hrow]; exact hjlen
          · rw [getMat_setMat_ne m i2 j (upscale e.cost) i j (Or.inl hne)]
            exact hnone

/-! ### Lookup and scan-loop lemmas -/

theorem pyIndex_some_lt {α : Type} [DecidableEq α] :
    ∀ (l : List α) (x : α) (n : ℕ), pyIndex l x = some n → n < l.length := by
  intro l
  induction l with
  | nil => intro x n h; exact Option.noConfusion h
  | cons a l ih =>
    intro x n h
    rw [pyIndex] at h
    by_cases hax : a = x
    · rw [if_pos hax] at h
      cases h
      simp
    · rw [if_neg hax] at h
      rcases Option.map_eq_some'.mp h with ⟨k, hk, hn⟩
      have := ih x k hk
      simp only [List.length_cons]
      omega

theorem pyIndex_some_getD {α : Type} [DecidableEq α] (d : α) :
    ∀ (l : List α) (x : α) (n : ℕ), pyIndex l x = some n → l.getD n d = x := by
  intro l
  induction l with
  | nil => intro x n h; exact Option.noConfusion h
  | cons a l ih =>
    intro x n h
    rw [pyIndex] at h
    by_cases hax : a = x
    · rw [if_pos hax] at h
      simp at h
      rw [← h]
      exact hax
    · rw [if_neg hax] at h
      rcases Option.map_eq_some'.mp h with ⟨k, hk, hn⟩
      rw [← hn]
      exact ih x k hk

theorem pyIndex_getElem_nodup {α : Type} [DecidableEq α] :
    ∀ (l : List α), l.Nodup → ∀ (n : ℕ) (h : n < l.length),
      pyIndex l l[n] = some n := by
  intro l
  induction l with
  | nil => intro _ n h; simp at h
  | cons a l ih =>
    intro hnd n h
    rcases List.nodup_cons.mp hnd with ⟨hna, hnl⟩
    cases n with
    | zero => simp [pyIndex]
    | succ k =>
      have hk : k < l.length := by simpa using h
      have hgl : (a :: l)[k + 1] = l[k] := by simp
      rw [hgl, pyIndex,
        if_neg (fun hq => hna (by rw [hq]; exact List.getElem_mem hk)),
        ih hnl k hk]
      rfl

theorem processScans_append (ids : List String) (oids : List ℤ) :
    ∀ (l1 l2 : List ScanInput) (st : ScanState),
      processScans ids oids (l1 ++ l2) st =
        match processScans ids oids l1 st with
        | .ok st1 => processScans ids oids l2 st1
        | .error e => .error e := by
  intro l1
  induction l1 with
  | nil => intro l2 st; rfl
  | cons s ss ih =>
    intro l2 st
    show processScans ids oids (s :: (ss ++ l2)) st = _
    simp only [processScans]
    split
    · rfl
    split
    · rfl
    split
    · rfl
    · exact ih l2 _

theorem processScans_ok_all_isSome (ids : List String) (oids : List ℤ) :
    ∀ (ss : List ScanInput) (st st' : ScanState),
      processScans ids oids ss st = .ok st' →
      ∀ s ∈ ss, s.seqCost.isSome = true := by
  intro ss
  induction ss with
  | nil => intro st st' _ s hs; cases hs
  | cons s0 rest ih =>
    intro st st' h s hs
    simp only [processScans] at h
    cases hpi : pyIndex ids s0.id with
    | none => simp only [hpi] at h; exact Except.noConfusion h
    | some j =>
      simp only [hpi] at h
      cases hc : s0.seqCost with
      | none => simp only [hc] at h; exact Except.noConfusion h
      | some c =>
        simp only [hc] at h
        cases he : processEntries oids (upscale c) j (s0.eCosts ++ s0.pCosts) st.indexCosts with
        | error e => simp only [he] at h; exact Except.noConfusion h
        | ok m =>
          simp only [he] at h
          rcases List.mem_cons.mp hs with hq | hq
          · rw [hq, hc]; rfl
          · exact ih _ st' h s hq

theorem processScans_seq_len (ids : List String) (oids : List ℤ) :
    ∀ (ss : List ScanInput) (st st' : ScanState),
      processScans ids oids ss st = .ok st' →
      st'.seqCosts.length = st.seqCosts.length := by
  intro ss
  induction ss with
  | nil => intro st st' h; cases h; rfl
  | cons s0 rest ih =>
    intro st st' h
    simp only [processScans] at h
    cases hpi : pyIndex ids s0.id with
    | none => simp only [hpi] at h; exact Except.noConfusion h
    | some j =>
      simp only [hpi] at h
      cases hc : s0.seqCost with
      | none => simp only [hc] at h; exact Except.noConfusion h
      | some c =>
        simp only [hc] at h
        cases he : processEntries oids (upscale c) j (s0.eCosts ++ s0.pCosts) st.indexCosts with
        | error e => simp only [he] at h; exact Except.noConfusion h
        | ok m =>
          simp only [he] at h
          rw [ih _ st' h]
          exact List.length_set _ _ _

theorem processScans_shape (ids : List String) (oids : List ℤ) (I J : ℕ) :
    ∀ (ss : List ScanInput) (st st' : ScanState),
      processScans ids oids ss st = .ok st' →
      MShape st.indexCosts I J → MShape st'.indexCosts I J := by
  intro ss
  induction ss with
  | nil => intro st st' h hs; cases h; exact hs
  | cons s0 rest ih =>
    intro st st' h hs
    simp only [processScans] at h
    cases hpi : pyIndex ids s0.id with
    | none => simp only [hpi] at h; exact Except.noConfusion h
    | some j =>
      simp only [hpi] at h
      cases hc : s0.seqCost with
      | none => simp only [hc] at h; exact Except.noConfusion h
      | some c =>
        simp only [hc] at h
        cases he : processEntries oids (upscale c) j (s0.eCosts ++ s0.pCosts) st.indexCosts with
        | error e => simp only [he] at h; exact Except.noConfusion h
        | ok m =>
          simp only [he] at h
          exact ih _ st' h (processEntries_shape oids (upscale c) j I J _ _ m he hs)

theorem processScans_frame (ids : List String) (oids : List ℤ) (j : ℕ) :
    ∀ (ss : List ScanInput) (st st' : ScanState),
      processScans ids oids ss st = .ok st' →
      (∀ s ∈ ss, pyIndex ids s.id ≠ some j) →
      st'.seqCosts.getD j none = st.seqCosts.getD j none ∧
      ∀ i, getMat st'.indexCosts i j = getMat st.indexCosts i j := by
  intro ss
  induction ss with
  | nil => intro st st' h _; cases h; exact ⟨rfl, fun _ => rfl⟩
  | cons s0 rest ih =>
    intro st st' h hno
    simp only [processScans] at h
    cases hpi : pyIndex ids s0.id with
    | none => simp only [hpi] at h; exact Except.noConfusion h
    | some j2 =>
      simp only [hpi] at h
      have hj2 : j2 ≠ j := by
        intro hq
        exact hno s0 (List.mem_cons_self s0 rest) (hq ▸ hpi)
      cases hc : s0.seqCost with
      | none => simp only [hc] at h; exact Except.noConfusion h
      | some c =>
        simp only [hc] at h
        cases he : processEntries oids (upscale c) j2 (s0.eCosts ++ s0.pCosts) st.indexCosts with
        | error e => simp only [he] at h; exact Except.noConfusion h
        | ok m =>
          simp only [he] at h
          have hrest := ih _ st' h (fun s hs => hno s (List.mem_cons_of_mem s0 hs))
          constructor
          · rw [hrest.1]
            exact getD_set_ne _ j2 j _ none hj2
          · intro i
            rw [hrest.2 i]
            exact processEntries_frame oids (upscale c) j2 _ _ m he i j
              (fun hq => hj2 hq.symm)

theorem fillRowR_getD (seq : List (Option ℤ)) :
    ∀ (row : List (Option ℤ)) (k jj : ℕ), jj < row.length →
      (fillRowR seq k row).getD jj none =
        (match row.getD jj none with
         | some c => some c
         | none => seq.getD (k + jj) none) := by
  intro row
  induction row with
  | nil => intro k jj h; simp at h
  | cons v r ih =>
    intro k jj h
    cases jj with
    | zero => cases v <;> simp [fillRowR]
    | succ n =>
      have hn : n < r.length := by simpa using h
      show (fillRowR seq (k + 1) r).getD n none = _
      rw [ih (k + 1) n hn]
      have hkn : k + 1 + n = k + (n + 1) := by omega
      rw [hkn]
      rfl

theorem readProblem_ok_inv (p : ProblemInput) (pd : ProblemData)
    (hok : readProblem p = .ok pd) :
    ∃ st : ScanState,
      processScans (scanIDs p) (indexOIDs p) p.scans
        ⟨List.replicate (scanIDs p).length none,
         List.replicate (indexOIDs p).length
           (List.replicate (scanIDs p).length none)⟩ = .ok st ∧
      pd.seqCosts = st.seqCosts ∧
      pd.indexCosts = st.indexCosts ∧
      pd.indexCostsR = st.indexCosts.map (fun row => fillRowR st.seqCosts 0 row) := by
  simp only [readProblem] at hok
  split at hok
  · exact Except.noConfusion hok
  · obtain ⟨st, hst⟩ := bind_ok_inv _ _ _ hok
    rw [hst] at hok
    simp only [Bind.bind, Except.bind] at hok
    obtain ⟨iwos, hiwos⟩ := bind_ok_inv _ _ _ hok
    rw [hiwos] at hok
    simp only [Bind.bind, Except.bind] at hok
    refine ⟨st, hst, ?_, ?_, ?_⟩ <;>
      · injection hok with hok2
        rw [← hok2]

/-- C5: after normalization, for every index `i` and retained scan `j`
(identified by its record `sj` with sequential cost `cj`), the Real cost
matrix entry is defined and at most the scan's upscaled sequential cost;
when the scan's cost entries never mention index `i`'s OID the entry equals
the sequential cost, and when they mention it exactly once with cost `c`
the entry is the upscaled `c` exactly when that upscaled cost is strictly
below the upscaled sequential cost, and the sequential cost otherwise. -/
theorem real_cost_matrix_dominated (p : ProblemInput) (pd : ProblemData)
    (sj : ScanInput) (cj : ℚ) (i j : ℕ)
    (hok : readProblem p = .ok pd)
    (hnd : (scanIDs p).Nodup)
    (hnod : (indexOIDs p).Nodup)
    (hj : j < p.scans.length)
    (hi : i < (indexOIDs p).length)
    (hsj : p.scans[j] = sj)
    (hcj : sj.seqCost = some cj) :
    pd.seqCosts.getD j none = some (upscale cj) ∧
    (∃ r, getMat pd.indexCostsR i j = some r ∧ r ≤ upscale cj) ∧
    ((∀ e ∈ sj.eCosts ++ sj.pCosts, e.oid ≠ (indexOIDs p).getD i 0) →
      getMat pd.indexCostsR i j = some (upscale cj)) ∧
    (∀ e0, e0 ∈ sj.eCosts ++ sj.pCosts → e0.oid = (indexOIDs p).getD i 0 →
      (∀ e ∈ sj.eCosts ++ sj.pCosts, e.oid = (indexOIDs p).getD i 0 → e = e0) →
      getMat pd.indexCostsR i j =
        some (if upscale e0.cost < upscale cj then upscale e0.cost else upscale cj)) := by
  obtain ⟨st, hst, hseq, hcosts, hR⟩ := readProblem_ok_inv p pd hok
  have hall : ∀ s ∈ p.scans, s.seqCost.isSome = true :=
    processScans_ok_all_isSome _ _ _ _ _ hst
  have hids : scanIDs p = p.scans.map (fun s => s.id) := by
    rw [scanIDs, List.filter_eq_self.mpr hall]
  have hlen : (scanIDs p).length = p.scans.length := by rw [hids]; simp
  have hjlen : j < (scanIDs p).length := by omega
  have hgj : (scanIDs p)[j] = sj.id := by
    have h2 : j < (p.scans.map (fun s => s.id)).length := by simpa using hj
    have h3 : (scanIDs p)[j] = (p.scans.map (fun s => s.id))[j] := by
      congr 1
    rw [h3, List.getElem_map, hsj]
  have hpj : pyIndex (scanIDs p) sj.id = some j := by
    rw [← hgj]
    exact pyIndex_getElem_nodup (scanIDs p) hnd j hjlen
  have hgdj : (scanIDs p).getD j "" = sj.id := by
    rw [List.getD_eq_getElem?_getD, List.getElem?_eq_getElem hjlen]
    exact hgj
  have hdecomp : p.scans = p.scans.take j ++ sj :: p.scans.drop (j + 1) := by
    rw [← hsj, ← List.drop_eq_getElem_cons hj, List.take_append_drop]
  -- scans before position j never index to column j
  have hframe1 : ∀ s ∈ p.scans.take j, pyIndex (scanIDs p) s.id ≠ some j := by
    intro s hs hq
    have hgd := pyIndex_some_getD "" (scanIDs p) s.id j hq
    have hsid : sj.id ∈ (scanIDs p).take j := by
      have : s.id ∈ (scanIDs p).take j := by
        rw [hids, ← List.map_take]
        exact List.mem_map_of_mem _ hs
      rw [← hgd, hgdj] at this
      exact this
    have hnd2 := hnd
    rw [← List.take_append_drop j (scanIDs p)] at hnd2
    rcases List.nodup_append.mp hnd2 with ⟨_, _, hdisj⟩
    have hin : sj.id ∈ (scanIDs p).drop j := by
      rw [List.drop_eq_getElem_cons hjlen, hgj]
      exact List.mem_cons_self _ _
    exact hdisj hsid hin
  -- scans after position j never index to column j
  have hframe2 : ∀ s ∈ p.scans.drop (j + 1), pyIndex (scanIDs p) s.id ≠ some j := by
    intro s hs hq
    have hgd := pyIndex_some_getD "" (scanIDs p) s.id j hq
    have hsid : sj.id ∈ (scanIDs p).drop (j + 1) := by
      have : s.id ∈ (scanIDs p).drop (j + 1) := by
        rw [hids, ← List.map_drop]
        exact List.mem_map_of_mem _ hs
      rw [← hgd, hgdj] at this
      exact this
    have hnddrop : ((scanIDs p).drop j).Nodup :=
      (List.drop_sublist j (scanIDs p)).nodup hnd
    rw [List.drop_eq_getElem_cons hjlen, hgj] at hnddrop
    exact (List.nodup_cons.mp hnddrop).1 hsid
  -- split the scan loop at position j
  have happ := processScans_append (scanIDs p) (indexOIDs p)
    (p.scans.take j) (sj :: p.scans.drop (j + 1))
    ⟨List.replicate (scanIDs p).length none,
     List.replicate (indexOIDs p).length (List.replicate (scanIDs p).length none)⟩
  rw [← hdecomp] at happ
  rw [happ] at hst
  cases h1st : processScans (scanIDs p) (indexOIDs p) (p.scans.take j)
      ⟨List.replicate (scanIDs p).length none,
       List.replicate (indexOIDs p).length (List.replicate (scanIDs p).length none)⟩ with
  | error e => rw [h1st] at hst; exact Except.noConfusion hst
  | ok st1 =>
    rw [h1st] at hst
    have hst2 : processScans (scanIDs p) (indexOIDs p)
        (sj :: p.scans.drop (j + 1)) st1 = .ok st := hst
    simp only [processScans, hpj, hcj] at hst2
    cases hpe : processEntries (indexOIDs p) (upscale cj) j
        (sj.eCosts ++ sj.pCosts) st1.indexCosts with
    | error e => simp only [hpe] at hst2; exact Except.noConfusion hst2
    | ok m2 =>
      simp only [hpe] at hst2
      -- frames around the single writer of column j
      have hfr1 := processScans_frame (scanIDs p) (indexOIDs p) j
        (p.scans.take j) _ st1 h1st hframe1
      have hfr2 := processScans_frame (scanIDs p) (indexOIDs p) j
        (p.scans.drop (j + 1)) _ st hst2 hframe2
      -- shapes and lengths
      have hshape0 : MShape (List.replicate (indexOIDs p).length
          (List.replicate (scanIDs p).length (none : Option ℤ)))
          (indexOIDs p).length (scanIDs p).length :=
        MShape_replicate _ _
      have hshape1 : MShape st1.indexCosts (indexOIDs p).length (scanIDs p).length :=
        processScans_shape _ _ _ _ _ _ _ h1st hshape0
      have hlen1 : st1.seqCosts.length = (scanIDs p).length := by
        rw [processScans_seq_len _ _ _ _ _ h1st]
        exact List.length_replicate _ _
      have hshapeSt : MShape st.indexCosts (indexOIDs p).length (scanIDs p).length :=
        processScans_shape _ _ _ _ _ _ _ hst2
          (processEntries_shape _ _ _ _ _ _ _ _ hpe hshape1)
      have hlenSt : st.seqCosts.length = (scanIDs p).length := by
        rw [processScans_seq_len _ _ _ _ _ hst2]
        show (st1.seqCosts.set j (upscale cj)).length = _
        rw [List.length_set]
        exact hlen1
      -- the stored sequential cost of scan j
      have hseqj : st.seqCosts.getD j none = some (upscale cj) := by
        rw [hfr2.1]
        show (st1.seqCosts.set j (upscale cj)).getD j none = _
        rw [getD_set_self _ _ _ _ (by omega)]
      -- column j of st1 is still untouched
      have hcol1 : ∀ i2, getMat st1.indexCosts i2 j = none := by
        intro i2
        rw [hfr1.2 i2]
        exact getMat_replicate_none _ _ _ _
      have hstcol : getMat st.indexCosts i j = getMat m2 i j := hfr2.2 i
      -- the Real matrix entry in terms of the raw entry and the sequential cost
      have hrowlen : (st.indexCosts.getD i []).length = (scanIDs p).length :=
        hshapeSt.2 i hi
      have hRpd : getMat pd.indexCostsR i j =
          (match getMat st.indexCosts i j with
           | some c => some c
           | none => st.seqCosts.getD j none) := by
        rw [hR]
        show ((st.indexCosts.map (fun row => fillRowR st.seqCosts 0 row)).getD i
          []).getD j none = _
        have hmap : (st.indexCosts.map (fun row => fillRowR st.seqCosts 0 row)).getD i
            [] = fillRowR st.seqCosts 0 (st.indexCosts.getD i []) :=
          getD_map_lt _ _ i [] (by rw [hshapeSt.1]; omega)
        rw [hmap, fillRowR_getD st.seqCosts _ 0 j (by omega)]
        simp only [Nat.zero_add, getMat]
      refine ⟨?_, ?_, ?_, ?_⟩
      · rw [hseq]; exact hseqj
      · -- the entry is defined and dominated by the sequential cost
        cases hm : getMat m2 i j with
        | none =>
          refine ⟨upscale cj, ?_, le_refl _⟩
          rw [hRpd, hstcol, hm, hseqj]
        | some v =>
          refine ⟨v, ?_, ?_⟩
          · rw [hRpd, hstcol, hm]
          · rcases processEntries_le _ _ _ _ _ _ hpe i v (hstcol ▸ hm) with hlt | hold
            · omega
            · rw [hcol1 i] at hold
              exact Option.noConfusion hold
      · -- no entry mentions this index: fallback to the sequential cost
        intro habs
        have hnw : getMat m2 i j = getMat st1.indexCosts i j :=
          processEntries_no_write _ _ _ i _ _ _ hpe
            (fun e he hq =>
              absurd (pyIndex_some_getD 0 _ _ _ hq) (fun hc => habs e he hc.symm))
        rw [hRpd, hstcol, hnw, hcol1 i, hseqj]
      · -- exactly one entry mentions this index
        intro e0 h0 hoid honly
        have hoidi : (indexOIDs p).getD i 0 = (indexOIDs p)[i] := by
          rw [List.getD_eq_getElem?_getD, List.getElem?_eq_getElem hi]
          rfl
        have hpi0 : pyIndex (indexOIDs p) e0.oid = some i := by
          rw [hoid, hoidi]
          exact pyIndex_getElem_nodup _ hnod i hi
        have hchar := processEntries_char _ _ _ i e0 _ _ _ hpe h0 hpi0
          (fun e he hq =>
            honly e he (by rw [← pyIndex_some_getD 0 _ _ _ hq]))
          (by rw [hshape1.1]; omega)
          (by rw [hshape1.2 i hi]; omega)
          (hcol1 i)
        by_cases hcov : upscale e0.cost < upscale cj
        · rw [if_pos hcov]
          rw [hRpd, hstcol, hchar, if_pos hcov]
        · rw [if_neg hcov]
          rw [hRpd, hstcol, hchar, if_neg hcov, hseqj]

theorem coverInput_reads :
    readProblem coverInput = .ok coverData := by
  have h50 : upscale 50 = 5000 := by norm_num [upscale, pyRound, multiplier]
  have h100 : upscale 100 = 10000 := by norm_num [upscale, pyRound, multiplier]
  have h20 : upscale 20 = 2000 := by norm_num [upscale, pyRound, multiplier]
  simp [readProblem, processScans, processEntries, processIWOs, pyIndex, scanIDs,
    indexOIDs, setMat, getMat, fillRowR, coverInput, coverData, h50, h100, h20,
    bind, Except.bind]

/-- Witness for C5: the covering-cost characterization instantiated on the
concrete one-scan workload. -/
theorem real_cost_matrix_dominated_witness :
    coverData.seqCosts.getD 0 none = some (upscale 100) ∧
    (∃ r, getMat coverData.indexCostsR 0 0 = some r ∧ r ≤ upscale 100) ∧
    ((∀ e ∈ ([] : List CostEntry) ++ [⟨2, 50⟩], e.oid ≠ (indexOIDs coverInput).getD 0 0) →
      getMat coverData.indexCostsR 0 0 = some (upscale 100)) ∧
    (∀ e0, e0 ∈ ([] : List CostEntry) ++ [⟨2, 50⟩] →
      e0.oid = (indexOIDs coverInput).getD 0 0 →
      (∀ e ∈ ([] : List CostEntry) ++ [⟨2, 50⟩],
        e.oid = (indexOIDs coverInput).getD 0 0 → e = e0) →
      getMat coverData.indexCostsR 0 0 =
        some (if upscale e0.cost < upscale 100 then upscale e0.cost else upscale 100)) :=
  real_cost_matrix_dominated coverInput coverData ⟨"s1", some 100, [], [⟨2, 50⟩]⟩ 100 0 0
    coverInput_reads (by decide) (by decide) (by decide) (by decide) rfl rfl

end IndexOpt
